import Mathlib

/-!
# Shallow embedding of the textewien points scraper

This file embeds the data model, points extraction, observation extraction
and reconciliation logic of `src/scrape.ts` and proves properties about them.

Machine integers are modelled as `Nat` (all points values in the program are
results of `parseInt` on 1-5 digit runs, or `0`); JS strings are `String`;
`undefined`/`null` results of DOM accessors are `Option`; the `new Date()`
clock and the WHATWG `new URL` resolver are external collaborators modelled
as explicit function parameters.
-/

/-- A single score reading `{timestamp, points}` (scrape.ts lines 6-9).
`timestamp` is an ISO string produced by the clock. -/
structure ScorePoint where
  timestamp : String
  points : Nat
deriving DecidableEq

/-- A tracked item `{name, url, score}` (scrape.ts lines 11-15). -/
structure TextEntry where
  name : String
  url : String
  score : List ScorePoint
deriving DecidableEq

/-- One scrape-time reading of an item.  In the source each parsed entry is a
`TextEntry` with a singleton `score`; the reconcile loop reads exactly
`p.name`, `p.url`, `p.score[0].points` and `p.score[0].timestamp`, which are
the four fields here (scrape.ts lines 104-109 and 116-133). -/
structure RawObservation where
  name : String
  url : String
  points : Nat
  timestamp : String
deriving DecidableEq

/-- The identity key `url || name` (JS: an empty string is falsy), as used at
scrape.ts lines 114 and 117. -/
def entryKeyOf (url name : String) : String :=
  if url = "" then name else url

/-- Identity key of a stored entry (`e.url || e.name`, line 114). -/
def entryKey (e : TextEntry) : String :=
  entryKeyOf e.url e.name

/-- Identity key of an observation (`p.url || p.name`, line 117). -/
def obsKey (o : RawObservation) : String :=
  entryKeyOf o.url o.name

/-! ## Points extraction (`parsePointsFromLi`, scrape.ts lines 34-50) -/

/-- Model of JS `String.prototype.trim`: strip whitespace from both ends. -/
def jsTrim (l : List Char) : List Char :=
  ((l.dropWhile Char.isWhitespace).reverse.dropWhile Char.isWhitespace).reverse

/-- Model of `parseInt` on a run of decimal digits. -/
def digitsToNat (l : List Char) : Nat :=
  l.foldl (fun a c => a * 10 + (c.toNat - 48)) 0

/-- Model of `s.match(/(\d{1,5})/)`: the leftmost match starts at the first
digit and greedily takes up to five consecutive digits. -/
def firstDigitRun : List Char → Option Nat
  | [] => none
  | c :: rest =>
    if c.isDigit then
      some (digitsToNat (((c :: rest).takeWhile Char.isDigit).take 5))
    else
      firstDigitRun rest

/-- Model of `s.match(/pt-(\d{1,5})/)`: scan left to right for `pt-`
immediately followed by at least one digit, capture up to five digits. -/
def ptClassMatch : List Char → Option Nat
  | [] => none
  | c :: rest =>
    match c, rest with
    | 'p', 't' :: '-' :: rest2 =>
      let ds := rest2.takeWhile Char.isDigit
      if ds = [] then ptClassMatch rest else some (digitsToNat (ds.take 5))
    | _, _ => ptClassMatch rest

/-- Case-insensitive "starts with" for an ASCII-lowercase pattern, modelling
the `/i` regex flag on the literals involved (all ASCII). -/
def ciStartsWith : List Char → List Char → Bool
  | [], _ => true
  | _ :: _, [] => false
  | p :: ps, c :: cs => (c.toLower == p) && ciStartsWith ps cs

/-- The tail alternation `(?:\s*Punkte|\s*punkt|<\/span>|\))` of the markup
regex at scrape.ts line 46, under the `/i` flag.  `\s*` is greedy and the
literals start with non-space characters, so dropping all whitespace first is
exact. -/
def punkteTail (l : List Char) : Bool :=
  ciStartsWith "punkte".data (l.dropWhile Char.isWhitespace) ||
  ciStartsWith "punkt".data (l.dropWhile Char.isWhitespace) ||
  ciStartsWith "</span>".data l ||
  (l.head? == some ')')

/-- Backtracking over the greedy `(\d{1,5})`: try `k` digits, `k` from the
greedy maximum down to 1, and succeed when the tail alternation matches what
follows. -/
def tryDigits (l : List Char) : Nat → Option Nat
  | 0 => none
  | k + 1 =>
    if punkteTail (l.drop (k + 1)) then some (digitsToNat (l.take (k + 1)))
    else tryDigits l k

/-- Model of `liHtml.match(/(?:\(|\s)(\d{1,5})(?:\s*Punkte|\s*punkt|<\/span>|\))/i)`
(scrape.ts line 46): leftmost position whose head is `(` or whitespace and
where some 1-5 digit run followed by the tail alternation matches. -/
def markupScan : List Char → Option Nat
  | [] => none
  | c :: rest =>
    if c = '(' || c.isWhitespace then
      match tryDigits rest (min (rest.takeWhile Char.isDigit).length 5) with
      | some n => some n
      | none => markupScan rest
    else
      markupScan rest

/-- The strings `parsePointsFromLi` reads off the DOM node via cheerio:
`$li.find("div.punkte").first().text()`, `$li.attr("class")`,
`$li.find("div").attr("class")` and `$li.html()`.  Attribute and html
accessors can be absent (`undefined`/`null`), hence `Option`. -/
structure LiNode where
  punkteText : String
  liClass : Option String
  divClass : Option String
  innerHtml : Option String
deriving DecidableEq

/-- Tier 1 (scrape.ts lines 35-39): the trimmed text of the first
`div.punkte` child, when non-empty, matched against `/(\d{1,5})/`. -/
def punkteDivPoints (li : LiNode) : Option Nat :=
  let divText := jsTrim li.punkteText.data
  if divText = [] then none else firstDigitRun divText

/-- Tier 2 (scrape.ts lines 41-43): `($li.attr("class") || "") + " " +
($li.find("div").attr("class") || "")` matched against `/pt-(\d{1,5})/`. -/
def classTokenPoints (li : LiNode) : Option Nat :=
  ptClassMatch ((li.liClass.getD "") ++ " " ++ (li.divClass.getD "")).data

/-- Tier 3 (scrape.ts lines 45-47): the inner markup (`$li.html() || ""`)
scanned by the parenthesis/whitespace-delimited regex. -/
def markupPoints (li : LiNode) : Option Nat :=
  markupScan (li.innerHtml.getD "").data

/-- The function `parsePointsFromLi` (scrape.ts lines 34-50): three tiers
attempted in order, first success returned, default `0`. -/
def parsePointsFromLi (li : LiNode) : Nat :=
  match punkteDivPoints li with
  | some n => n
  | none =>
    match classTokenPoints li with
    | some n => n
    | none =>
      match markupPoints li with
      | some n => n
      | none => 0


/-! ## Observation extraction (the `itemsFallback.each` loop, scrape.ts lines 91-110) -/

/-- Collapse each maximal whitespace run to a single space, the model of
`str.replace(/\s+/g, " ")` (scrape.ts line 53). -/
def collapseWs : List Char → List Char
  | [] => []
  | [c] => if c.isWhitespace then [' '] else [c]
  | c1 :: c2 :: rest =>
    if c1.isWhitespace && c2.isWhitespace then collapseWs (c2 :: rest)
    else (if c1.isWhitespace then ' ' else c1) :: collapseWs (c2 :: rest)

/-- The function `normalizeName` (scrape.ts lines 52-54): collapse whitespace runs, trim. -/
def normalizeName (s : String) : String :=
  String.mk (jsTrim (collapseWs s.data))

/-- The first `<a>` descendant of an item: its text and its `href` attribute
(`undefined` when absent). -/
structure AnchorData where
  text : String
  href : Option String
deriving DecidableEq

/-- One candidate `li` node: its first anchor (none when `$a.length === 0`,
scrape.ts line 94) and the strings the points parser reads. -/
structure LiItem where
  anchor : Option AnchorData
  node : LiNode
deriving DecidableEq

/-- The `itemsFallback.each` loop (scrape.ts lines 91-110), with the two
external collaborators made explicit: `resolve` models
`new URL(href, base).href` already applied to the run's base URL (`none` when
the constructor throws, in which case the raw href is kept, lines 98-102),
and `clock` models successive `new Date().toISOString()` readings — the
argument counts how many readings have been taken so far (one per pushed
entry, line 108). -/
def extractLoop (resolve : String → Option String) (clock : Nat → String) :
    List LiItem → Nat → List RawObservation
  | [], _ => []
  | it :: rest, t =>
    match it.anchor with
    | none => extractLoop resolve clock rest t
    | some a =>
      let name := normalizeName a.text
      let href0 := a.href.getD ""
      let href := (resolve href0).getD href0
      let points := parsePointsFromLi it.node
      ⟨name, href, points, clock t⟩ :: extractLoop resolve clock rest (t + 1)

/-- Extraction of one run's observations, starting from a fresh clock. -/
def extractEntries (resolve : String → Option String) (clock : Nat → String)
    (items : List LiItem) : List RawObservation :=
  extractLoop resolve clock items 0

/-- Number of items the loop keeps (those with a locatable link). -/
def keptCount (items : List LiItem) : Nat :=
  items.countP (fun it => it.anchor.isSome)

/-! ## Reconciliation (scrape.ts lines 112-139) -/

/-- The working map, `Map<string, TextEntry>` with JS `Map` semantics:
insertion order is kept, `set` on an existing key updates in place. -/
abbrev EMap := List (String × TextEntry)

/-- Model of `Map.get`: the value stored at `k`, if any. -/
def lookupKey : EMap → String → Option TextEntry
  | [], _ => none
  | (k', v) :: rest, k => if k' = k then some v else lookupKey rest k

/-- Model of `Map.set`: update the entry at `k` in place, else append at the end. -/
def mapSet : EMap → String → TextEntry → EMap
  | [], k, v => [(k, v)]
  | (k', v') :: rest, k, v =>
    if k' = k then (k', v) :: rest else (k', v') :: mapSet rest k v

/-- Index the loaded history by identity key (scrape.ts lines 113-114);
later duplicate keys silently overwrite earlier ones. -/
def buildMap (h : List TextEntry) : EMap :=
  h.foldl (fun m e => mapSet m (entryKey e) e) []

/-- The ScorePoint an observation contributes (`p.score[0]`). -/
def scorePointOf (o : RawObservation) : ScorePoint :=
  ⟨o.timestamp, o.points⟩

/-- The entry pushed for an unseen key (`existingMap.set(key, p)`, line 121):
the parsed entry itself, with its singleton score. -/
def obsToEntry (o : RawObservation) : TextEntry :=
  ⟨o.name, o.url, [scorePointOf o]⟩

/-- Processing of one observation (loop body, scrape.ts lines 116-133):
absent key inserts the parsed entry; present key appends a ScorePoint exactly
when the score is empty or the last recorded points differ. -/
def reconStep (m : EMap) (o : RawObservation) : EMap :=
  match lookupKey m (obsKey o) with
  | none => mapSet m (obsKey o) (obsToEntry o)
  | some e =>
    match e.score.getLast? with
    | none => mapSet m (obsKey o) { e with score := e.score ++ [scorePointOf o] }
    | some last =>
      if last.points = o.points then m
      else mapSet m (obsKey o) { e with score := e.score ++ [scorePointOf o] }

/-- The working map after all observations are processed. -/
def reconcileMap (h : List TextEntry) (obs : List RawObservation) : EMap :=
  obs.foldl reconStep (buildMap h)

/-- Model of `Array.from(existingMap.values())` (line 135): JS `Map` iterates in
insertion order. -/
def mapValues (m : EMap) : List TextEntry :=
  m.map (·.2)

/-- Model of the sort comparator `a.name.localeCompare(b.name, undefined,
{sensitivity: "base"})` (line 136): case-insensitive lexicographic order,
with the external locale collation modelled as ASCII case folding. -/
def entryLE (a b : TextEntry) : Prop :=
  a.name.data.map Char.toLower ≤ b.name.data.map Char.toLower

instance : DecidableRel entryLE :=
  fun a b =>
    inferInstanceAs (Decidable (a.name.data.map Char.toLower ≤ b.name.data.map Char.toLower))

instance : IsTotal TextEntry entryLE :=
  ⟨fun a b => le_total (a.name.data.map Char.toLower) (b.name.data.map Char.toLower)⟩

instance : IsTrans TextEntry entryLE :=
  ⟨fun _ _ _ hab hbc => le_trans hab hbc⟩

/-- The full merge `reconcile` (lines 112-137) — index the history, fold the
observations through the working map, return the values sorted by name
(case-insensitive).  The sort itself is JS `Array.prototype.sort` (stable),
modelled by insertion sort. -/
def reconcile (h : List TextEntry) (obs : List RawObservation) : List TextEntry :=
  List.insertionSort entryLE (mapValues (reconcileMap h obs))

/-- Points of the last element of an entry's score sequence
(`existingEntry.score[existingEntry.score.length - 1].points`, line 124). -/
def lastPoints (e : TextEntry) : Option Nat :=
  e.score.getLast?.map (·.points)

/-- The entry stored at an observation's key after its loop iteration, as a
function of what the map held there before: insertion of the parsed entry,
append of a ScorePoint, or the unchanged entry (scrape.ts lines 120-132). -/
def stepEntry : Option TextEntry → RawObservation → TextEntry
  | none, o => obsToEntry o
  | some e, o =>
    match e.score.getLast? with
    | none => { e with score := e.score ++ [scorePointOf o] }
    | some last =>
      if last.points = o.points then e
      else { e with score := e.score ++ [scorePointOf o] }

/-- Every pair of the working map stores an entry under its own identity key. -/
def KeyInv (m : EMap) : Prop :=
  ∀ p ∈ m, entryKey p.2 = p.1

/-- The working map's keys are pairwise distinct (JS `Map` semantics). -/
def KeysNodup (m : EMap) : Prop :=
  (m.map Prod.fst).Nodup

/-- A synthetic extracted item whose anchor is present. -/
def linkedItem (nm u : String) : LiItem :=
  ⟨some ⟨nm, some u⟩, ⟨"", none, none, none⟩⟩

/-- A clock whose successive readings differ. -/
def tickingClock : Nat → String :=
  fun n => if n = 0 then "t0" else "t1"

/-- A URL resolver that always throws (the raw href is kept). -/
def noResolve : String → Option String :=
  fun _ => none

/-! ## Concrete sanity checks of the embedding -/

example : parsePointsFromLi ⟨"  42 Punkte ", some "pt-7", none, none⟩ = 42 := by decide
example : parsePointsFromLi ⟨"", some "foo pt-7", none, none⟩ = 7 := by decide
example : parsePointsFromLi ⟨"", none, none, some "<span>(13)</span>"⟩ = 13 := by decide
example : parsePointsFromLi ⟨"", none, none, some "x 12 Punkte"⟩ = 12 := by decide
example : parsePointsFromLi ⟨"", none, none, some "(123456)"⟩ = 0 := by decide
example : parsePointsFromLi ⟨"", none, none, none⟩ = 0 := by decide
example :
    reconcile [] [⟨"A", "u1", 5, "t0"⟩] = [⟨"A", "u1", [⟨"t0", 5⟩]⟩] := by decide
example :
    reconcile [⟨"A", "u1", [⟨"t0", 5⟩]⟩] [⟨"A", "u1", 7, "t1"⟩] =
      [⟨"A", "u1", [⟨"t0", 5⟩, ⟨"t1", 7⟩]⟩] := by decide
example :
    reconcile [⟨"A", "u1", [⟨"t0", 5⟩]⟩] [⟨"A", "u1", 5, "t1"⟩] =
      [⟨"A", "u1", [⟨"t0", 5⟩]⟩] := by decide
example :
    reconcile [] [⟨"A", "u1", 5, "t0"⟩, ⟨"A", "u1", 7, "t0"⟩] =
      [⟨"A", "u1", [⟨"t0", 5⟩, ⟨"t0", 7⟩]⟩] := by decide

/-! ## Lemmas about the working map -/

theorem lookupKey_mapSet (m : EMap) (k : String) (v : TextEntry) (k' : String) :
    lookupKey (mapSet m k v) k' = if k' = k then some v else lookupKey m k' := by
  induction m with
  | nil =>
    simp only [mapSet, lookupKey]
    by_cases h : k' = k
    · simp [h]
    · rw [if_neg (fun hh => h hh.symm), if_neg h]
  | cons hd tl ih =>
    obtain ⟨k0, v0⟩ := hd
    simp only [mapSet]
    by_cases h0 : k0 = k
    · subst h0
      simp only [if_pos rfl, lookupKey]
      by_cases h1 : k' = k0
      · simp [h1]
      · rw [if_neg (fun hh => h1 hh.symm), if_neg h1, if_neg (fun hh => h1 hh.symm)]
    · simp only [if_neg h0, lookupKey, ih]
      by_cases h2 : k0 = k'
      · subst h2
        rw [if_pos rfl, if_neg (fun hh : k0 = k => h0 hh), if_pos rfl]
      · rw [if_neg h2, if_neg h2]

theorem lookupKey_none_iff (m : EMap) (k : String) :
    lookupKey m k = none ↔ k ∉ m.map Prod.fst := by
  induction m with
  | nil => simp [lookupKey]
  | cons hd tl ih =>
    obtain ⟨k0, v0⟩ := hd
    simp only [lookupKey, List.map_cons, List.mem_cons]
    by_cases h : k0 = k
    · subst h; simp
    · have hne : ¬ k = k0 := fun hh => h hh.symm
      rw [if_neg h, ih]
      simp [not_or, hne]

theorem lookupKey_mem (m : EMap) (k : String) (e : TextEntry)
    (h : lookupKey m k = some e) : (k, e) ∈ m := by
  induction m with
  | nil => simp [lookupKey] at h
  | cons hd tl ih =>
    obtain ⟨k0, v0⟩ := hd
    by_cases h0 : k0 = k
    · subst h0
      simp [lookupKey] at h
      subst h
      exact List.mem_cons_self _ _
    · simp [lookupKey, h0] at h
      exact List.mem_cons_of_mem _ (ih h)

theorem mem_lookupKey (m : EMap) (k : String) (e : TextEntry)
    (hnd : KeysNodup m) (h : (k, e) ∈ m) : lookupKey m k = some e := by
  induction m with
  | nil => simp at h
  | cons hd tl ih =>
    obtain ⟨k0, v0⟩ := hd
    have hnd' : KeysNodup tl := (List.nodup_cons.mp hnd).2
    rcases List.mem_cons.mp h with h1 | h1
    · obtain ⟨hk, hv⟩ := Prod.mk.injEq .. ▸ h1
      subst hk; subst hv
      simp [lookupKey]
    · by_cases h0 : k0 = k
      · subst h0
        exfalso
        have : k0 ∈ tl.map Prod.fst := List.mem_map_of_mem Prod.fst h1
        exact (List.nodup_cons.mp hnd).1 this
      · simpa [lookupKey, h0] using ih hnd' h1

theorem mapSet_of_absent (m : EMap) (k : String) (v : TextEntry)
    (h : lookupKey m k = none) : mapSet m k v = m ++ [(k, v)] := by
  induction m with
  | nil => rfl
  | cons hd tl ih =>
    obtain ⟨k0, v0⟩ := hd
    by_cases h0 : k0 = k
    · subst h0; simp [lookupKey] at h
    · simp [lookupKey, h0] at h
      simp [mapSet, h0, ih h]

theorem mapSet_keys (m : EMap) (k : String) (v : TextEntry) :
    (mapSet m k v).map Prod.fst =
      if (lookupKey m k).isSome then m.map Prod.fst else m.map Prod.fst ++ [k] := by
  induction m with
  | nil => simp [mapSet, lookupKey]
  | cons hd tl ih =>
    obtain ⟨k0, v0⟩ := hd
    by_cases h0 : k0 = k
    · subst h0; simp [mapSet, lookupKey]
    · have e1 : mapSet ((k0, v0) :: tl) k v = (k0, v0) :: mapSet tl k v := by
        simp [mapSet, h0]
      have e2 : lookupKey ((k0, v0) :: tl) k = lookupKey tl k := by
        simp [lookupKey, h0]
      rw [e1, e2, List.map_cons, ih]
      by_cases h1 : (lookupKey tl k).isSome <;> simp [h1]

theorem mapSet_keysNodup (m : EMap) (k : String) (v : TextEntry)
    (hnd : KeysNodup m) : KeysNodup (mapSet m k v) := by
  unfold KeysNodup
  rw [mapSet_keys]
  by_cases h : (lookupKey m k).isSome
  · simpa [h] using hnd
  · have hk : lookupKey m k = none := Option.not_isSome_iff_eq_none.mp h
    have hkm : k ∉ m.map Prod.fst := (lookupKey_none_iff m k).mp hk
    rw [if_neg h, List.nodup_append]
    refine ⟨hnd, List.nodup_singleton k, ?_⟩
    intro x hx hxk
    rw [List.mem_singleton] at hxk
    exact hkm (hxk ▸ hx)

theorem mem_mapSet (m : EMap) (k : String) (v : TextEntry) (p : String × TextEntry)
    (h : p ∈ mapSet m k v) : p ∈ m ∨ p = (k, v) := by
  induction m with
  | nil => simpa [mapSet] using h
  | cons hd tl ih =>
    obtain ⟨k0, v0⟩ := hd
    by_cases h0 : k0 = k
    · subst h0
      simp only [mapSet, if_pos rfl] at h
      rcases List.mem_cons.mp h with h1 | h1
      · right; exact h1
      · left; exact List.mem_cons_of_mem _ h1
    · simp only [mapSet, if_neg h0] at h
      rcases List.mem_cons.mp h with h1 | h1
      · left; exact h1 ▸ List.mem_cons_self _ _
      · rcases ih h1 with h2 | h2
        · left; exact List.mem_cons_of_mem _ h2
        · right; exact h2

theorem mapSet_length (m : EMap) (k : String) (v : TextEntry) :
    (mapSet m k v).length =
      if (lookupKey m k).isSome then m.length else m.length + 1 := by
  have := congrArg List.length (rfl : mapSet m k v = mapSet m k v)
  have h := mapSet_keys m k v
  have hl : (mapSet m k v).length = ((mapSet m k v).map Prod.fst).length :=
    (List.length_map _ _).symm
  rw [hl, h]
  by_cases h1 : (lookupKey m k).isSome <;> simp [h1]

/-! ## Lemmas about one reconciliation step -/

theorem getLast?_append_single {α : Type} (l : List α) (a : α) :
    (l ++ [a]).getLast? = some a := by
  rw [List.getLast?_append_cons l a []]
  rfl

theorem getLast?_eq_none_iff {α : Type} (l : List α) :
    l.getLast? = none ↔ l = [] := by
  cases l with
  | nil => simp
  | cons a t =>
    constructor
    · intro h
      exfalso
      rcases t.eq_nil_or_concat with ht | ⟨t', b, ht⟩
      · subst ht; simp [List.getLast?] at h
      · subst ht
        rw [List.concat_eq_append, ← List.cons_append, getLast?_append_single] at h
        cases h
    · intro h; cases h

theorem mapSet_self (m : EMap) (k : String) (v : TextEntry)
    (h : lookupKey m k = some v) : mapSet m k v = m := by
  induction m with
  | nil => simp [lookupKey] at h
  | cons hd tl ih =>
    obtain ⟨k0, v0⟩ := hd
    by_cases h0 : k0 = k
    · subst h0
      simp only [lookupKey, if_pos rfl] at h
      simp [mapSet, Option.some.inj h]
    · simp only [lookupKey, if_neg h0] at h
      simp [mapSet, h0, ih h]

theorem reconStep_eq_mapSet (m : EMap) (o : RawObservation) :
    reconStep m o = mapSet m (obsKey o) (stepEntry (lookupKey m (obsKey o)) o) := by
  cases h : lookupKey m (obsKey o) with
  | none => simp only [reconStep, stepEntry, h]
  | some e =>
    simp only [reconStep, stepEntry, h]
    cases hg : e.score.getLast? with
    | none => rfl
    | some last =>
      dsimp only
      by_cases hp : last.points = o.points
      · rw [if_pos hp, if_pos hp, mapSet_self m (obsKey o) e h]
      · rw [if_neg hp, if_neg hp]

theorem lookupKey_reconStep (m : EMap) (o : RawObservation) (k : String) :
    lookupKey (reconStep m o) k =
      if k = obsKey o then some (stepEntry (lookupKey m (obsKey o)) o)
      else lookupKey m k := by
  rw [reconStep_eq_mapSet, lookupKey_mapSet]

theorem stepEntry_name (e : TextEntry) (o : RawObservation) :
    (stepEntry (some e) o).name = e.name := by
  simp only [stepEntry]
  cases e.score.getLast? with
  | none => rfl
  | some last =>
    dsimp only
    by_cases hp : last.points = o.points
    · rw [if_pos hp]
    · rw [if_neg hp]

theorem stepEntry_url (e : TextEntry) (o : RawObservation) :
    (stepEntry (some e) o).url = e.url := by
  simp only [stepEntry]
  cases e.score.getLast? with
  | none => rfl
  | some last =>
    dsimp only
    by_cases hp : last.points = o.points
    · rw [if_pos hp]
    · rw [if_neg hp]

theorem stepEntry_score (e : TextEntry) (o : RawObservation) :
    (stepEntry (some e) o).score = e.score ∨
      (stepEntry (some e) o).score = e.score ++ [scorePointOf o] := by
  simp only [stepEntry]
  cases e.score.getLast? with
  | none => right; rfl
  | some last =>
    dsimp only
    by_cases hp : last.points = o.points
    · left; rw [if_pos hp]
    · right; rw [if_neg hp]

theorem stepEntry_lastPoints (me : Option TextEntry) (o : RawObservation) :
    lastPoints (stepEntry me o) = some o.points := by
  cases me with
  | none =>
    simp only [stepEntry, obsToEntry, lastPoints, scorePointOf]
    rfl
  | some e =>
    simp only [stepEntry]
    cases hg : e.score.getLast? with
    | none =>
      unfold lastPoints
      rw [getLast?_append_single]
      rfl
    | some last =>
      dsimp only
      by_cases hp : last.points = o.points
      · rw [if_pos hp]
        unfold lastPoints
        rw [hg, Option.map_some']
        rw [hp]
      · rw [if_neg hp]
        unfold lastPoints
        rw [getLast?_append_single]
        rfl

theorem lastPoints_score_nonempty (e : TextEntry) (p : Nat)
    (h : lastPoints e = some p) : e.score ≠ [] := by
  intro hs
  unfold lastPoints at h
  rw [hs] at h
  cases h

theorem reconStep_length (m : EMap) (o : RawObservation) :
    (reconStep m o).length =
      if (lookupKey m (obsKey o)).isSome then m.length else m.length + 1 := by
  rw [reconStep_eq_mapSet, mapSet_length]

theorem reconStep_noChange (m : EMap) (o : RawObservation) (e : TextEntry)
    (hl : lookupKey m (obsKey o) = some e) (hp : lastPoints e = some o.points) :
    reconStep m o = m := by
  obtain ⟨last, hg, hlp⟩ : ∃ last, e.score.getLast? = some last ∧ last.points = o.points := by
    unfold lastPoints at hp
    cases hg : e.score.getLast? with
    | none => rw [hg] at hp; cases hp
    | some last =>
      rw [hg, Option.map_some'] at hp
      exact ⟨last, rfl, Option.some.inj hp⟩
  simp only [reconStep, hl, hg, if_pos hlp]

/-! ## Lemmas about the observation fold -/

theorem foldl_reconStep_lookup_ne (O : List RawObservation) (m : EMap) (k : String)
    (h : ∀ o ∈ O, obsKey o ≠ k) :
    lookupKey (O.foldl reconStep m) k = lookupKey m k := by
  induction O generalizing m with
  | nil => rfl
  | cons o rest ih =>
    rw [List.foldl_cons, ih _ (fun o' ho' => h o' (List.mem_cons_of_mem _ ho')),
      lookupKey_reconStep,
      if_neg (fun hk => h o (List.mem_cons_self _ _) hk.symm)]

theorem foldl_reconStep_grow (O : List RawObservation) (m : EMap) (k : String)
    (e : TextEntry) (h : lookupKey m k = some e) :
    ∃ e', lookupKey (O.foldl reconStep m) k = some e' ∧
      e'.name = e.name ∧ e'.url = e.url ∧ ∃ t, e'.score = e.score ++ t := by
  induction O generalizing m e with
  | nil => exact ⟨e, h, rfl, rfl, [], by simp⟩
  | cons o rest ih =>
    rw [List.foldl_cons]
    by_cases hk : k = obsKey o
    · subst hk
      have h1 : lookupKey (reconStep m o) (obsKey o) = some (stepEntry (some e) o) := by
        rw [lookupKey_reconStep, if_pos rfl, h]
      obtain ⟨e', he', hn, hu, t, ht⟩ := ih (reconStep m o) (stepEntry (some e) o) h1
      refine ⟨e', he', hn.trans (stepEntry_name e o), hu.trans (stepEntry_url e o), ?_⟩
      rcases stepEntry_score e o with hs | hs
      · exact ⟨t, by rw [ht, hs]⟩
      · exact ⟨[scorePointOf o] ++ t, by rw [ht, hs, List.append_assoc]⟩
    · have h1 : lookupKey (reconStep m o) k = some e := by
        rw [lookupKey_reconStep, if_neg hk, h]
      exact ih (reconStep m o) e h1

theorem foldl_reconStep_length (O : List RawObservation) (m : EMap) :
    m.length ≤ (O.foldl reconStep m).length := by
  induction O generalizing m with
  | nil => exact le_refl _
  | cons o rest ih =>
    rw [List.foldl_cons]
    refine le_trans ?_ (ih (reconStep m o))
    rw [reconStep_length]
    by_cases h : (lookupKey m (obsKey o)).isSome
    · rw [if_pos h]
    · rw [if_neg h]; exact Nat.le_succ _

theorem foldl_reconStep_lastPoints (O : List RawObservation) (m : EMap) :
    ∀ o ∈ O, ∃ e, lookupKey (O.foldl reconStep m) (obsKey o) = some e ∧
      ∃ o', o' ∈ O ∧ obsKey o' = obsKey o ∧ lastPoints e = some o'.points := by
  induction O generalizing m with
  | nil => intro o ho; simp at ho
  | cons o1 rest ih =>
    intro o ho
    rw [List.foldl_cons]
    by_cases hrest : ∃ o' ∈ rest, obsKey o' = obsKey o
    · obtain ⟨o', ho', hk⟩ := hrest
      obtain ⟨e, he, o'', ho'', hk'', hlp⟩ := ih (reconStep m o1) o' ho'
      exact ⟨e, hk ▸ he, o'', List.mem_cons_of_mem _ ho'', hk''.trans hk, hlp⟩
    · have ho1 : o = o1 := by
        rcases List.mem_cons.mp ho with h1 | h1
        · exact h1
        · exact absurd ⟨o, h1, rfl⟩ hrest
      subst ho1
      have hne : ∀ o' ∈ rest, obsKey o' ≠ obsKey o :=
        fun o' ho' hk => hrest ⟨o', ho', hk⟩
      rw [foldl_reconStep_lookup_ne rest _ _ hne, lookupKey_reconStep, if_pos rfl]
      exact ⟨stepEntry (lookupKey m (obsKey o)) o, rfl, o, List.mem_cons_self _ _,
        rfl, stepEntry_lastPoints _ o⟩

theorem foldl_reconStep_noop (O : List RawObservation) (m : EMap)
    (h : ∀ o ∈ O, ∃ e, lookupKey m (obsKey o) = some e ∧ lastPoints e = some o.points) :
    O.foldl reconStep m = m := by
  induction O with
  | nil => rfl
  | cons o rest ih =>
    obtain ⟨e, hl, hp⟩ := h o (List.mem_cons_self _ _)
    rw [List.foldl_cons, reconStep_noChange m o e hl hp]
    exact ih (fun o' ho' => h o' (List.mem_cons_of_mem _ ho'))

/-! ## Invariants of the working map -/

theorem keyInv_mapSet (m : EMap) (k : String) (v : TextEntry)
    (hm : KeyInv m) (hv : entryKey v = k) : KeyInv (mapSet m k v) := by
  intro p hp
  rcases mem_mapSet m k v p hp with h | h
  · exact hm p h
  · rw [h]; exact hv

theorem keyInv_buildMap (h : List TextEntry) : KeyInv (buildMap h) := by
  suffices H : ∀ (l : List TextEntry) (acc : EMap), KeyInv acc →
      KeyInv (l.foldl (fun m e => mapSet m (entryKey e) e) acc) by
    exact H h [] (fun p hp => by simp at hp)
  intro l
  induction l with
  | nil => intro acc hacc; exact hacc
  | cons e rest ih =>
    intro acc hacc
    exact ih _ (keyInv_mapSet acc (entryKey e) e hacc rfl)

theorem keysNodup_buildMap (h : List TextEntry) : KeysNodup (buildMap h) := by
  suffices H : ∀ (l : List TextEntry) (acc : EMap), KeysNodup acc →
      KeysNodup (l.foldl (fun m e => mapSet m (entryKey e) e) acc) by
    exact H h [] (by simp [KeysNodup])
  intro l
  induction l with
  | nil => intro acc hacc; exact hacc
  | cons e rest ih =>
    intro acc hacc
    exact ih _ (mapSet_keysNodup acc (entryKey e) e hacc)

theorem entryKey_stepEntry (m : EMap) (o : RawObservation) (hm : KeyInv m) :
    entryKey (stepEntry (lookupKey m (obsKey o)) o) = obsKey o := by
  cases h : lookupKey m (obsKey o) with
  | none =>
    show entryKey (obsToEntry o) = obsKey o
    rfl
  | some e =>
    have he : entryKey e = obsKey o := hm (obsKey o, e) (lookupKey_mem m (obsKey o) e h)
    rw [← he]
    unfold entryKey
    rw [stepEntry_name e o, stepEntry_url e o]

theorem keyInv_reconStep (m : EMap) (o : RawObservation) (hm : KeyInv m) :
    KeyInv (reconStep m o) := by
  rw [reconStep_eq_mapSet]
  exact keyInv_mapSet m _ _ hm (entryKey_stepEntry m o hm)

theorem keysNodup_reconStep (m : EMap) (o : RawObservation) (hm : KeysNodup m) :
    KeysNodup (reconStep m o) := by
  rw [reconStep_eq_mapSet]
  exact mapSet_keysNodup m _ _ hm

theorem keyInv_reconcileMap (h : List TextEntry) (obs : List RawObservation) :
    KeyInv (reconcileMap h obs) := by
  unfold reconcileMap
  suffices H : ∀ (l : List RawObservation) (acc : EMap), KeyInv acc →
      KeyInv (l.foldl reconStep acc) by
    exact H obs (buildMap h) (keyInv_buildMap h)
  intro l
  induction l with
  | nil => intro acc hacc; exact hacc
  | cons o rest ih => intro acc hacc; exact ih _ (keyInv_reconStep acc o hacc)

theorem keysNodup_reconcileMap (h : List TextEntry) (obs : List RawObservation) :
    KeysNodup (reconcileMap h obs) := by
  unfold reconcileMap
  suffices H : ∀ (l : List RawObservation) (acc : EMap), KeysNodup acc →
      KeysNodup (l.foldl reconStep acc) by
    exact H obs (buildMap h) (keysNodup_buildMap h)
  intro l
  induction l with
  | nil => intro acc hacc; exact hacc
  | cons o rest ih => intro acc hacc; exact ih _ (keysNodup_reconStep acc o hacc)

/-! ## Re-indexing a saved history -/

theorem lookupKey_append (m1 m2 : EMap) (k : String) :
    lookupKey (m1 ++ m2) k =
      match lookupKey m1 k with
      | some v => some v
      | none => lookupKey m2 k := by
  induction m1 with
  | nil => rfl
  | cons hd tl ih =>
    obtain ⟨k0, v0⟩ := hd
    by_cases h0 : k0 = k
    · subst h0; simp [lookupKey]
    · simp [lookupKey, h0, ih]

theorem buildMap_nodup (L : List TextEntry) (hnd : (L.map entryKey).Nodup) :
    buildMap L = L.map (fun e => (entryKey e, e)) := by
  suffices H : ∀ (l : List TextEntry) (acc : EMap),
      (∀ e ∈ l, lookupKey acc (entryKey e) = none) → (l.map entryKey).Nodup →
      l.foldl (fun m e => mapSet m (entryKey e) e) acc =
        acc ++ l.map (fun e => (entryKey e, e)) by
    have := H L [] (fun e _ => rfl) hnd
    simpa using this
  intro l
  induction l with
  | nil => intro acc _ _; simp
  | cons e rest ih =>
    intro acc hfresh hnd'
    rw [List.foldl_cons,
      mapSet_of_absent acc (entryKey e) e (hfresh e (List.mem_cons_self _ _))]
    have hnd'' : (rest.map entryKey).Nodup := (List.nodup_cons.mp hnd').2
    have hke : entryKey e ∉ rest.map entryKey := (List.nodup_cons.mp hnd').1
    have hfresh' : ∀ e' ∈ rest, lookupKey (acc ++ [(entryKey e, e)]) (entryKey e') = none := by
      intro e' he'
      rw [lookupKey_append, hfresh e' (List.mem_cons_of_mem _ he')]
      have hne : ¬ entryKey e = entryKey e' := by
        intro hh
        exact hke (hh ▸ List.mem_map_of_mem entryKey he')
      simp [lookupKey, hne]
    rw [ih _ hfresh' hnd'', List.append_assoc]
    rfl

theorem mapValues_pairList (L : List TextEntry) :
    mapValues (L.map (fun e => (entryKey e, e))) = L := by
  unfold mapValues
  rw [List.map_map]
  exact List.map_id L

theorem keys_pairList (L : List TextEntry) :
    (L.map (fun e => (entryKey e, e))).map Prod.fst = L.map entryKey := by
  rw [List.map_map]
  rfl

theorem mapValues_keys_of_keyInv (m : EMap) (hm : KeyInv m) :
    (mapValues m).map entryKey = m.map Prod.fst := by
  unfold mapValues
  rw [List.map_map]
  exact List.map_congr_left (fun p hp => hm p hp)

theorem lookupKey_mem_values (m : EMap) (k : String) (e : TextEntry)
    (h : lookupKey m k = some e) : e ∈ mapValues m := by
  have := lookupKey_mem m k e h
  unfold mapValues
  exact List.mem_map_of_mem Prod.snd this

theorem mem_values_lookupKey (m : EMap) (e : TextEntry)
    (hm : KeyInv m) (hnd : KeysNodup m) (h : e ∈ mapValues m) :
    lookupKey m (entryKey e) = some e := by
  unfold mapValues at h
  obtain ⟨p, hp, hpe⟩ := List.mem_map.mp h
  obtain ⟨k, v⟩ := p
  have hke : entryKey e = k := by
    have := hm (k, v) hp
    simp only at hpe
    rw [hpe] at this
    exact this
  rw [hke]
  have hv : v = e := hpe
  subst hv
  exact mem_lookupKey m k v hnd hp

theorem reconcile_perm_values (h : List TextEntry) (obs : List RawObservation) :
    (reconcile h obs).Perm (mapValues (reconcileMap h obs)) :=
  List.perm_insertionSort entryLE _

theorem reconcile_keys_nodup (h : List TextEntry) (obs : List RawObservation) :
    ((reconcile h obs).map entryKey).Nodup := by
  have hperm : ((reconcile h obs).map entryKey).Perm
      ((mapValues (reconcileMap h obs)).map entryKey) :=
    (reconcile_perm_values h obs).map entryKey
  rw [hperm.nodup_iff, mapValues_keys_of_keyInv _ (keyInv_reconcileMap h obs)]
  exact keysNodup_reconcileMap h obs

theorem lookup_buildMap_reconcile (h : List TextEntry) (obs : List RawObservation)
    (k : String) :
    lookupKey (buildMap (reconcile h obs)) k = lookupKey (reconcileMap h obs) k := by
  have hInv := keyInv_reconcileMap h obs
  have hNd := keysNodup_reconcileMap h obs
  have hRnd := reconcile_keys_nodup h obs
  have hbm := buildMap_nodup _ hRnd
  have hRkeysNd : KeysNodup (buildMap (reconcile h obs)) := by
    unfold KeysNodup
    rw [hbm, keys_pairList]
    exact hRnd
  cases hl : lookupKey (reconcileMap h obs) k with
  | none =>
    rw [lookupKey_none_iff] at hl ⊢
    intro hk
    apply hl
    rw [hbm, keys_pairList] at hk
    obtain ⟨e, he, hek⟩ := List.mem_map.mp hk
    have he' : e ∈ mapValues (reconcileMap h obs) :=
      ((reconcile_perm_values h obs).mem_iff).mp he
    obtain ⟨p, hp, hpe⟩ := List.mem_map.mp he'
    have : p.1 = k := by rw [← hek, ← hpe]; exact (hInv p hp).symm ▸ rfl
    rw [← this]
    exact List.mem_map_of_mem Prod.fst hp
  | some e =>
    have he : e ∈ mapValues (reconcileMap h obs) := lookupKey_mem_values _ _ _ hl
    have hek : entryKey e = k := by
      have := hInv (k, e) (lookupKey_mem _ _ _ hl)
      exact this
    have heR : e ∈ reconcile h obs := ((reconcile_perm_values h obs).mem_iff).mpr he
    have : (k, e) ∈ buildMap (reconcile h obs) := by
      rw [hbm]
      exact List.mem_map.mpr ⟨e, heR, by rw [hek]⟩
    exact mem_lookupKey _ k e hRkeysNd this

/-! ## Bounds on extracted points values -/

theorem charDigitVal_le (c : Char) (h : c.isDigit = true) : c.toNat - 48 ≤ 9 := by
  simp only [Char.isDigit] at h
  obtain ⟨h1, h2⟩ := Bool.and_eq_true_iff.mp h
  have : c.toNat ≤ 57 := by
    simpa using Nat.le_of_lt_succ (Nat.lt_succ_of_le
      (by exact_mod_cast Nat.le_of_ble_eq_true (by simpa using h2)))
  omega

theorem digitsToNat_aux_lt (l : List Char) :
    ∀ a : Nat, (∀ c ∈ l, c.isDigit = true) →
      l.foldl (fun a c => a * 10 + (c.toNat - 48)) a < (a + 1) * 10 ^ l.length := by
  induction l with
  | nil =>
    intro a _
    simp
  | cons c t ih =>
    intro a h
    rw [List.foldl_cons]
    have hd : c.toNat - 48 ≤ 9 := charDigitVal_le c (h c (List.mem_cons_self _ _))
    have h1 := ih (a * 10 + (c.toNat - 48)) (fun c' hc' => h c' (List.mem_cons_of_mem _ hc'))
    have h2 : (a * 10 + (c.toNat - 48) + 1) * 10 ^ t.length ≤ (a + 1) * 10 ^ (t.length + 1) := by
      have : a * 10 + (c.toNat - 48) + 1 ≤ (a + 1) * 10 := by omega
      calc (a * 10 + (c.toNat - 48) + 1) * 10 ^ t.length
          ≤ (a + 1) * 10 * 10 ^ t.length := Nat.mul_le_mul_right _ this
        _ = (a + 1) * 10 ^ (t.length + 1) := by ring
    exact lt_of_lt_of_le h1 (by simpa using h2)

theorem digitsToNat_le (l : List Char) (hd : ∀ c ∈ l, c.isDigit = true)
    (hlen : l.length ≤ 5) : digitsToNat l ≤ 99999 := by
  have h1 : digitsToNat l < 10 ^ l.length := by
    have := digitsToNat_aux_lt l 0 hd
    simpa [digitsToNat] using this
  have h2 : (10 : Nat) ^ l.length ≤ 10 ^ 5 :=
    Nat.pow_le_pow_right (by omega) hlen
  omega

theorem take_sat {α : Type} (p : α → Bool) (l : List α) :
    ∀ k, k ≤ (l.takeWhile p).length → ∀ c ∈ l.take k, p c = true := by
  induction l with
  | nil => intro k _ c hc; simp at hc
  | cons a t ih =>
    intro k hk c hc
    cases k with
    | zero => simp at hc
    | succ k' =>
      by_cases hp : p a = true
      · rw [List.takeWhile_cons, if_pos hp] at hk
        simp only [List.length_cons, Nat.succ_le_succ_iff] at hk
        rw [List.take_succ_cons] at hc
        rcases List.mem_cons.mp hc with h1 | h1
        · rw [h1]; exact hp
        · exact ih k' hk c h1
      · rw [List.takeWhile_cons, if_neg hp] at hk
        simp at hk

theorem firstDigitRun_le (l : List Char) (n : Nat)
    (h : firstDigitRun l = some n) : n ≤ 99999 := by
  induction l with
  | nil => cases h
  | cons c rest ih =>
    rw [firstDigitRun] at h
    by_cases hc : c.isDigit = true
    · rw [if_pos hc] at h
      have hn := Option.some.inj h
      subst hn
      apply digitsToNat_le
      · intro c' hc'
        exact List.mem_takeWhile_imp (List.mem_of_mem_take hc')
      · rw [List.length_take]
        exact min_le_left _ _
    · rw [if_neg hc] at h
      exact ih h

theorem ptClassMatch_le (l : List Char) :
    ∀ n, ptClassMatch l = some n → n ≤ 99999 := by
  induction l using ptClassMatch.induct with
  | case1 => intro n h; cases h
  | case2 rest2 ds hds ih =>
    intro n h
    have e1 : ptClassMatch ('p' :: 't' :: '-' :: rest2) =
        if rest2.takeWhile Char.isDigit = [] then ptClassMatch ('t' :: '-' :: rest2)
        else some (digitsToNat ((rest2.takeWhile Char.isDigit).take 5)) := rfl
    rw [e1, if_pos hds] at h
    exact ih n h
  | case3 rest2 ds hds =>
    intro n h
    have e1 : ptClassMatch ('p' :: 't' :: '-' :: rest2) =
        if rest2.takeWhile Char.isDigit = [] then ptClassMatch ('t' :: '-' :: rest2)
        else some (digitsToNat ((rest2.takeWhile Char.isDigit).take 5)) := rfl
    rw [e1, if_neg hds] at h
    have hn := Option.some.inj h
    subst hn
    apply digitsToNat_le
    · intro c' hc'
      exact List.mem_takeWhile_imp (List.mem_of_mem_take hc')
    · rw [List.length_take]
      exact min_le_left _ _
  | case4 c rest hne ih =>
    intro n h
    rw [ptClassMatch.eq_def] at h
    dsimp only at h
    split at h
    · rename_i rest2
      exact (hne rest2 rfl rfl).elim
    · exact ih n h

theorem tryDigits_le (l : List Char) :
    ∀ k, k ≤ 5 → k ≤ (l.takeWhile Char.isDigit).length →
      ∀ n, tryDigits l k = some n → n ≤ 99999 := by
  intro k
  induction k with
  | zero => intro _ _ n h; cases h
  | succ k' ih =>
    intro hk5 hkrun n h
    rw [tryDigits] at h
    split at h
    · have hn := Option.some.inj h
      subst hn
      apply digitsToNat_le
      · exact take_sat Char.isDigit l (k' + 1) hkrun
      · rw [List.length_take]
        exact le_trans (min_le_left _ _) hk5
    · exact ih (by omega) (by omega) n h

theorem markupScan_le (l : List Char) (n : Nat)
    (h : markupScan l = some n) : n ≤ 99999 := by
  induction l with
  | nil => cases h
  | cons c rest ih =>
    rw [markupScan] at h
    split at h
    all_goals try exact ih h
    split at h
    all_goals try exact ih h
    rename_i n' heq
    have hn := Option.some.inj h
    subst hn
    exact tryDigits_le rest _ (min_le_right _ _) (min_le_left _ _) n' heq

/-! ## Timestamps of extracted observations -/

theorem extractLoop_timestamps (resolve : String → Option String)
    (clock : Nat → String) (items : List LiItem) :
    ∀ t, (extractLoop resolve clock items t).map (fun o => o.timestamp) =
      (List.range (keptCount items)).map (fun i => clock (t + i)) := by
  induction items with
  | nil => intro t; rfl
  | cons it rest ih =>
    intro t
    cases ha : it.anchor with
    | none =>
      have e1 : extractLoop resolve clock (it :: rest) t =
          extractLoop resolve clock rest t := by
        rw [extractLoop, ha]
      have e2 : keptCount (it :: rest) = keptCount rest := by
        unfold keptCount
        rw [List.countP_cons, ha]
        rfl
      rw [e1, e2, ih t]
    | some a =>
      have e1 : extractLoop resolve clock (it :: rest) t =
          ⟨normalizeName a.text,
            (resolve (a.href.getD "")).getD (a.href.getD ""),
            parsePointsFromLi it.node, clock t⟩ :: extractLoop resolve clock rest (t + 1) := by
        rw [extractLoop, ha]
      have e2 : keptCount (it :: rest) = keptCount rest + 1 := by
        unfold keptCount
        rw [List.countP_cons, ha]
        rfl
      rw [e1, e2, List.map_cons, ih (t + 1), List.range_succ_eq_map,
        List.map_cons, List.map_map]
      refine congrArg₂ _ (by rw [Nat.add_zero]) ?_
      apply List.map_congr_left
      intro i _
      show clock (t + 1 + i) = clock (t + (i + 1))
      rw [Nat.add_assoc, Nat.add_comm 1 i]

/-! ## Claim theorems -/

/-- C9: the points value extracted for any item node is a non-negative
integer at most 99999: every tier captures at most a 5-digit run and the
default is 0 (non-negativity holds by the `Nat` codomain, faithful to the
source where every recorded value is `parseInt` of 1-5 digits or `0`). -/
theorem parsePointsFromLi_le (li : LiNode) : parsePointsFromLi li ≤ 99999 := by
  unfold parsePointsFromLi
  cases h1 : punkteDivPoints li with
  | some n =>
    dsimp only
    unfold punkteDivPoints at h1
    dsimp only at h1
    split at h1
    · cases h1
    · exact firstDigitRun_le _ _ h1
  | none =>
    dsimp only
    cases h2 : classTokenPoints li with
    | some n =>
      dsimp only
      unfold classTokenPoints at h2
      exact ptClassMatch_le _ _ h2
    | none =>
      dsimp only
      cases h3 : markupPoints li with
      | some n =>
        dsimp only
        unfold markupPoints at h3
        exact markupScan_le _ _ h3
      | none => exact Nat.zero_le _

/-- C7: points extraction tries the dedicated score-label node, then the
class token, then the markup scan, in that fixed order, returning the first
success (so a score-label value wins over a conflicting class token), and
returns 0 when all three fail. -/
theorem parsePointsFromLi_fallback_order (li : LiNode) (v : Nat) :
    (punkteDivPoints li = some v → parsePointsFromLi li = v) ∧
    (punkteDivPoints li = none → classTokenPoints li = some v →
      parsePointsFromLi li = v) ∧
    (punkteDivPoints li = none → classTokenPoints li = none →
      markupPoints li = some v → parsePointsFromLi li = v) ∧
    (punkteDivPoints li = none → classTokenPoints li = none →
      markupPoints li = none → parsePointsFromLi li = 0) := by
  refine ⟨?_, ?_, ?_, ?_⟩ <;> intros <;> simp only [parsePointsFromLi, *]

/-- Witness for C7 at a node whose score-label text reads 42 while a
conflicting class token encodes 7: the label value wins. -/
theorem parsePointsFromLi_fallback_order_witness :
    parsePointsFromLi ⟨"  42 Punkte ", some "pt-7", none, none⟩ = 42 ∧
    classTokenPoints ⟨"  42 Punkte ", some "pt-7", none, none⟩ = some 7 :=
  ⟨(parsePointsFromLi_fallback_order ⟨"  42 Punkte ", some "pt-7", none, none⟩ 42).1
      (by decide),
    by decide⟩

/-- C5 counterexample: the extractor reads the clock once per kept item
(`new Date()` at scrape.ts line 108 is inside the loop), so with a clock
whose successive readings differ, one run's observations carry different
`observedAt` timestamps — refuting "all observations carry the same single
timestamp". -/
theorem extract_same_timestamp_cex :
    ∃ o1 ∈ extractEntries noResolve tickingClock
        [linkedItem "A" "u", linkedItem "B" "v"],
      ∃ o2 ∈ extractEntries noResolve tickingClock
          [linkedItem "A" "u", linkedItem "B" "v"],
        o1.timestamp ≠ o2.timestamp := by decide

/-- C5 amended: each observation's `observedAt` is read from the clock when
that item is processed — the k-th kept item of the run gets the k-th clock
reading — so all observations of a run share one timestamp only when those
per-item readings happen to coincide. -/
theorem extract_timestamps_per_item (resolve : String → Option String)
    (clock : Nat → String) (items : List LiItem) :
    (extractEntries resolve clock items).map (fun o => o.timestamp) =
      (List.range (keptCount items)).map clock := by
  unfold extractEntries
  rw [extractLoop_timestamps resolve clock items 0]
  apply List.map_congr_left
  intro i _
  rw [Nat.zero_add]

/-- C1: for the entry matched by an observation's identity key, a new
`ScorePoint {observedAt, points}` is appended exactly when the entry's score
is empty or the observation's points differ from the last recorded points;
when they are equal the map (hence the entry's score) is left unchanged. -/
theorem reconStep_append_iff (m : EMap) (o : RawObservation) (e : TextEntry)
    (h : lookupKey m (obsKey o) = some e) :
    (e.score = [] ∨ lastPoints e ≠ some o.points →
      lookupKey (reconStep m o) (obsKey o) =
        some { e with score := e.score ++ [scorePointOf o] }) ∧
    (e.score ≠ [] ∧ lastPoints e = some o.points → reconStep m o = m) := by
  constructor
  · intro hcond
    rw [lookupKey_reconStep, if_pos rfl, h]
    congr 1
    simp only [stepEntry]
    cases hg : e.score.getLast? with
    | none => rfl
    | some last =>
      dsimp only
      have hne : ¬ last.points = o.points := by
        rcases hcond with hc | hc
        · exact absurd ((getLast?_eq_none_iff e.score).mpr hc) (by rw [hg]; simp)
        · intro hp
          apply hc
          unfold lastPoints
          rw [hg, Option.map_some', hp]
      rw [if_neg hne]
  · intro hcond
    exact reconStep_noChange m o e h hcond.2

/-- Witness for C1: an entry whose last recorded points are 5 receives the
new point 7 by append. -/
theorem reconStep_append_iff_witness :
    lookupKey
        (reconStep [("u", ⟨"A", "u", [⟨"t0", 5⟩]⟩)] ⟨"A", "u", 7, "t1"⟩)
        (obsKey ⟨"A", "u", 7, "t1"⟩) =
      some ⟨"A", "u", [⟨"t0", 5⟩, ⟨"t1", 7⟩]⟩ :=
  (reconStep_append_iff [("u", ⟨"A", "u", [⟨"t0", 5⟩]⟩)] ⟨"A", "u", 7, "t1"⟩
      ⟨"A", "u", [⟨"t0", 5⟩]⟩ (by decide)).1 (by decide)

/-- C6: an existing entry matched by key keeps its `name` and `url` exactly
as stored (even when the observation carries a different name); its score can
only grow by appending. -/
theorem reconcile_never_updates_name_url (H : List TextEntry)
    (O : List RawObservation) (k : String) (e : TextEntry)
    (h : lookupKey (buildMap H) k = some e) :
    ∃ e', lookupKey (reconcileMap H O) k = some e' ∧
      e'.name = e.name ∧ e'.url = e.url ∧ ∃ t, e'.score = e.score ++ t :=
  foldl_reconStep_grow O (buildMap H) k e h

/-- Witness for C6: the observation renames "A" to "B" at the same url, yet
the stored entry keeps name "A" and only its score grows. -/
theorem reconcile_never_updates_name_url_witness :
    ∃ e', lookupKey
        (reconcileMap [⟨"A", "u", [⟨"t0", 5⟩]⟩] [⟨"B", "u", 7, "t1"⟩]) "u" = some e' ∧
      e'.name = "A" ∧ e'.url = "u" ∧ ∃ t, e'.score = [⟨"t0", 5⟩] ++ t :=
  reconcile_never_updates_name_url [⟨"A", "u", [⟨"t0", 5⟩]⟩] [⟨"B", "u", 7, "t1"⟩]
    "u" ⟨"A", "u", [⟨"t0", 5⟩]⟩ (by decide)

/-- C8: every key observed during the run ends with a non-empty score: a
fresh key inserts an entry with exactly one ScorePoint, and a matched entry
with empty score receives an appended ScorePoint. -/
theorem observed_entries_nonempty (H : List TextEntry) (O : List RawObservation) :
    (∀ o ∈ O, ∃ e, lookupKey (reconcileMap H O) (obsKey o) = some e ∧
      e.score ≠ []) ∧
    (∀ (m : EMap) (o : RawObservation), lookupKey m (obsKey o) = none →
      lookupKey (reconStep m o) (obsKey o) = some (obsToEntry o) ∧
        (obsToEntry o).score.length = 1) ∧
    (∀ (m : EMap) (o : RawObservation) (e : TextEntry),
      lookupKey m (obsKey o) = some e → e.score = [] →
      lookupKey (reconStep m o) (obsKey o) =
        some { e with score := [scorePointOf o] }) := by
  refine ⟨?_, ?_, ?_⟩
  · intro o ho
    obtain ⟨e, he, o', _, _, hlp⟩ := foldl_reconStep_lastPoints O (buildMap H) o ho
    exact ⟨e, he, lastPoints_score_nonempty e _ hlp⟩
  · intro m o hl
    constructor
    · rw [lookupKey_reconStep, if_pos rfl, hl]
      rfl
    · rfl
  · intro m o e hl hs
    rw [lookupKey_reconStep, if_pos rfl, hl]
    have hg : e.score.getLast? = none := by rw [hs]; rfl
    simp only [stepEntry, hg]
    rw [hs]
    rfl

/-- Witness for C8: a single fresh observation yields an entry with a
non-empty score. -/
theorem observed_entries_nonempty_witness :
    ∃ e, lookupKey (reconcileMap [] [⟨"A", "u", 5, "t0"⟩])
        (obsKey ⟨"A", "u", 5, "t0"⟩) = some e ∧ e.score ≠ [] :=
  (observed_entries_nonempty [] [⟨"A", "u", 5, "t0"⟩]).1
    ⟨"A", "u", 5, "t0"⟩ (by decide)

theorem stepEntry_append_of_ne (E : TextEntry) (o : RawObservation) (p : Nat)
    (hlp : lastPoints E = some p) (hne : o.points ≠ p) :
    stepEntry (some E) o = { E with score := E.score ++ [scorePointOf o] } := by
  obtain ⟨last, hg, hl2⟩ : ∃ last, E.score.getLast? = some last ∧ last.points = p := by
    unfold lastPoints at hlp
    cases hg : E.score.getLast? with
    | none => rw [hg] at hlp; cases hlp
    | some last =>
      rw [hg, Option.map_some'] at hlp
      exact ⟨last, rfl, Option.some.inj hlp⟩
  simp only [stepEntry, hg]
  rw [if_neg (fun hh => hne (hh.symm.trans hl2))]

/-- C10: two same-key observations in one run are reconciled sequentially
against the same map entry: equal points cause no second append (one
ScorePoint records the value), different points append a second ScorePoint
in the same run. -/
theorem duplicate_key_observations (m : EMap) (o1 o2 : RawObservation)
    (hk : obsKey o1 = obsKey o2) :
    (o2.points = o1.points →
      reconStep (reconStep m o1) o2 = reconStep m o1) ∧
    (o2.points ≠ o1.points →
      ∃ e, lookupKey (reconStep m o1) (obsKey o2) = some e ∧
        lookupKey (reconStep (reconStep m o1) o2) (obsKey o2) =
          some { e with score := e.score ++ [scorePointOf o2] }) ∧
    (lookupKey m (obsKey o1) = none → o2.points = o1.points →
      ∃ e, lookupKey (reconStep (reconStep m o1) o2) (obsKey o1) = some e ∧
        e.score.length = 1) := by
  have h1 : lookupKey (reconStep m o1) (obsKey o2) =
      some (stepEntry (lookupKey m (obsKey o1)) o1) := by
    rw [← hk, lookupKey_reconStep, if_pos rfl]
  have hlp : lastPoints (stepEntry (lookupKey m (obsKey o1)) o1) = some o1.points :=
    stepEntry_lastPoints _ o1
  refine ⟨?_, ?_, ?_⟩
  · intro hp
    apply reconStep_noChange _ o2 _ h1
    rw [hlp, hp]
  · intro hp
    refine ⟨_, h1, ?_⟩
    rw [lookupKey_reconStep, if_pos rfl, h1,
      stepEntry_append_of_ne _ o2 o1.points hlp hp]
  · intro hnone hp
    have hstep : reconStep (reconStep m o1) o2 = reconStep m o1 := by
      apply reconStep_noChange _ o2 _ h1
      rw [hlp, hp]
    rw [hstep, ← hk] at *
    rw [lookupKey_reconStep, if_pos rfl, hnone]
    exact ⟨obsToEntry o1, rfl, rfl⟩

/-- Witness for C10: the same reading reported twice in one run leaves the
map exactly as after the first reading. -/
theorem duplicate_key_observations_witness :
    reconStep (reconStep [] ⟨"A", "u", 5, "t0"⟩) ⟨"A", "u", 5, "t0"⟩ =
      reconStep [] ⟨"A", "u", 5, "t0"⟩ :=
  (duplicate_key_observations [] ⟨"A", "u", 5, "t0"⟩ ⟨"A", "u", 5, "t0"⟩
      (by decide)).1 rfl

theorem reconcile_pair_same_key (oa ob : RawObservation)
    (hk : obsKey oa = obsKey ob) : (reconcile [] [oa, ob]).length = 1 := by
  have l1 : (reconStep [] oa).length = 1 := by
    rw [reconStep_length]
    simp [lookupKey]
  have hsome : (lookupKey (reconStep [] oa) (obsKey ob)).isSome := by
    rw [← hk, lookupKey_reconStep, if_pos rfl]
    rfl
  have l2 : (reconStep (reconStep [] oa) ob).length = 1 := by
    rw [reconStep_length, if_pos hsome, l1]
  have e1 : reconcileMap [] [oa, ob] = reconStep (reconStep [] oa) ob := rfl
  show (List.insertionSort entryLE (mapValues (reconcileMap [] [oa, ob]))).length = 1
  rw [List.length_insertionSort]
  unfold mapValues
  rw [List.length_map, e1, l2]

/-- C4: entry identity is the key url-if-non-empty-else-name: two
observations with the same non-empty url collapse to one entry even with
different names; two with empty url and the same name collapse to one entry;
and a history entry is matched by an observation exactly by that key. -/
theorem identity_key_semantics (o1 o2 : RawObservation) (e : TextEntry) :
    (o1.url ≠ "" → o1.url = o2.url → (reconcile [] [o1, o2]).length = 1) ∧
    (o1.url = "" → o2.url = "" → o1.name = o2.name →
      (reconcile [] [o1, o2]).length = 1) ∧
    (entryKey e = obsKey o1 → (reconcile [e] [o1]).length = 1) := by
  refine ⟨?_, ?_, ?_⟩
  · intro h1 h2
    apply reconcile_pair_same_key
    unfold obsKey entryKeyOf
    rw [if_neg h1, if_neg (h2 ▸ h1), h2]
  · intro h1 h2 h3
    apply reconcile_pair_same_key
    unfold obsKey entryKeyOf
    rw [if_pos h1, if_pos h2, h3]
  · intro h1
    have e0 : buildMap [e] = [(entryKey e, e)] := rfl
    have hsome : (lookupKey (buildMap [e]) (obsKey o1)).isSome := by
      rw [e0, ← h1]
      simp [lookupKey]
    have l2 : (reconStep (buildMap [e]) o1).length = 1 := by
      rw [reconStep_length, if_pos hsome, e0]
      rfl
    show (List.insertionSort entryLE (mapValues (reconcileMap [e] [o1]))).length = 1
    rw [List.length_insertionSort]
    unfold mapValues
    rw [List.length_map]
    exact l2

/-- Witness for C4: same url "u" under different names "A"/"B" yields a
single entry. -/
theorem identity_key_semantics_witness :
    (reconcile [] [⟨"A", "u", 5, "t0"⟩, ⟨"B", "u", 7, "t0"⟩]).length = 1 :=
  (identity_key_semantics ⟨"A", "u", 5, "t0"⟩ ⟨"B", "u", 7, "t0"⟩
      ⟨"", "", []⟩).1 (by decide) rfl

/-- C2 counterexample: idempotence fails as stated when one run carries two
same-key observations with different points — the second pass appends the
alternating values again. -/
theorem reconcile_idempotent_cex :
    reconcile (reconcile [] [⟨"A", "u", 5, "t"⟩, ⟨"A", "u", 7, "t"⟩])
        [⟨"A", "u", 5, "t"⟩, ⟨"A", "u", 7, "t"⟩] ≠
      reconcile [] [⟨"A", "u", 5, "t"⟩, ⟨"A", "u", 7, "t"⟩] := by decide

/-- C2 amended: reconciling the same observations again against the previous
result appends nothing and creates nothing — the output is literally equal —
provided any two same-key observations of the run carry equal points (in
particular whenever identity keys are pairwise distinct; without this the
duplicate-key counterexample applies). -/
theorem reconcile_idempotent (H : List TextEntry) (O : List RawObservation)
    (hpts : ∀ o1 ∈ O, ∀ o2 ∈ O, obsKey o1 = obsKey o2 → o1.points = o2.points) :
    reconcile (reconcile H O) O = reconcile H O := by
  have hfix : ∀ o ∈ O, ∃ e,
      lookupKey (buildMap (reconcile H O)) (obsKey o) = some e ∧
        lastPoints e = some o.points := by
    intro o ho
    obtain ⟨e, he, o', ho', hk', hlp⟩ := foldl_reconStep_lastPoints O (buildMap H) o ho
    refine ⟨e, ?_, ?_⟩
    · rw [lookup_buildMap_reconcile]
      exact he
    · rw [hlp, hpts o' ho' o ho hk']
  have hnoop : O.foldl reconStep (buildMap (reconcile H O)) =
      buildMap (reconcile H O) :=
    foldl_reconStep_noop O _ hfix
  show List.insertionSort entryLE (mapValues (reconcileMap (reconcile H O) O)) =
    reconcile H O
  have e1 : reconcileMap (reconcile H O) O = buildMap (reconcile H O) := hnoop
  rw [e1, buildMap_nodup _ (reconcile_keys_nodup H O), mapValues_pairList]
  exact List.Sorted.insertionSort_eq (List.sorted_insertionSort entryLE _)

/-- Witness for C2 (amended): a second run over a singleton observation set
returns the first run's output unchanged. -/
theorem reconcile_idempotent_witness :
    reconcile (reconcile [] [⟨"A", "u", 5, "t0"⟩]) [⟨"A", "u", 5, "t0"⟩] =
      reconcile [] [⟨"A", "u", 5, "t0"⟩] :=
  reconcile_idempotent [] [⟨"A", "u", 5, "t0"⟩] (by decide)

/-- C3 counterexample: with two history entries sharing the identity key
"u", indexing silently overwrites the first, so the output has fewer entries
than the input — the claim fails for arbitrary input histories. -/
theorem reconcile_monotone_cex :
    (reconcile [⟨"A", "u", [⟨"t", 1⟩]⟩, ⟨"B", "u", [⟨"t", 2⟩]⟩] []).length <
      ([⟨"A", "u", [⟨"t", 1⟩]⟩, ⟨"B", "u", [⟨"t", 2⟩]⟩] : List TextEntry).length := by
  decide

/-- C3 amended: provided the input history's identity keys are pairwise
distinct (true of every reconcile output and every saved history), the entry
count never shrinks, each entry's score length is non-decreasing under its
key, and entries matching no observation are retained unchanged. -/
theorem reconcile_monotone (H : List TextEntry) (O : List RawObservation)
    (hnd : (H.map entryKey).Nodup) :
    H.length ≤ (reconcile H O).length ∧
    (∀ e ∈ H, ∃ e', e' ∈ reconcile H O ∧ entryKey e' = entryKey e ∧
      e.score.length ≤ e'.score.length) ∧
    (∀ e ∈ H, (∀ o ∈ O, obsKey o ≠ entryKey e) → e ∈ reconcile H O) := by
  have hbm : buildMap H = H.map (fun e => (entryKey e, e)) := buildMap_nodup H hnd
  have hlen0 : (buildMap H).length = H.length := by rw [hbm, List.length_map]
  have hlook : ∀ e ∈ H, lookupKey (buildMap H) (entryKey e) = some e := by
    intro e he
    rw [hbm]
    apply mem_lookupKey
    · unfold KeysNodup
      rw [keys_pairList]
      exact hnd
    · exact List.mem_map.mpr ⟨e, he, rfl⟩
  refine ⟨?_, ?_, ?_⟩
  · have h1 : (reconcile H O).length = (reconcileMap H O).length := by
      show (List.insertionSort entryLE (mapValues (reconcileMap H O))).length = _
      rw [List.length_insertionSort]
      unfold mapValues
      rw [List.length_map]
    rw [h1, ← hlen0]
    exact foldl_reconStep_length O (buildMap H)
  · intro e he
    obtain ⟨e', he', hn, hu, t, ht⟩ :=
      foldl_reconStep_grow O (buildMap H) (entryKey e) e (hlook e he)
    refine ⟨e', ?_, ?_, ?_⟩
    · have : e' ∈ mapValues (reconcileMap H O) := lookupKey_mem_values _ _ _ he'
      exact ((reconcile_perm_values H O).mem_iff).mpr this
    · unfold entryKey
      rw [hn, hu]
    · rw [ht, List.length_append]
      omega
  · intro e he hno
    have h2 : lookupKey (reconcileMap H O) (entryKey e) = some e := by
      show lookupKey (O.foldl reconStep (buildMap H)) (entryKey e) = some e
      rw [foldl_reconStep_lookup_ne O _ _ hno]
      exact hlook e he
    have : e ∈ mapValues (reconcileMap H O) := lookupKey_mem_values _ _ _ h2
    exact ((reconcile_perm_values H O).mem_iff).mpr this

/-- Witness for C3 (amended) on a one-entry history with no observations. -/
theorem reconcile_monotone_witness :
    ([⟨"A", "u", []⟩] : List TextEntry).length ≤
      (reconcile [⟨"A", "u", []⟩] []).length :=
  (reconcile_monotone [⟨"A", "u", []⟩] [] (by decide)).1
